import Mathlib

/-!
Verification of the ishell input-acquisition and command-resolution pipeline.

Shallow embedding of the Go sources:
* `ishell.go`   : `Shell.read`, `Shell.readMultiLinesFunc`, `Shell.run`,
                  `handleInput`, `handleInterrupt`, `Shell.handleCommand`
* `command.go`  : `Cmd`, `Cmd.AddCmd`, `Cmd.FindCmd`
* `completer.go`: `iCompleter.Do`, `iCompleter.getWords`
* `reader.go`   : `shellReader.ReadLine` (the consumer-list fan-out variant)

Go strings are modelled as `List Char`; Go's `map[string]*Cmd` is modelled as
an association list (map iteration order is determinized to insertion order).
-/

/-! ## Go string primitives used by the sources -/

/-- Model of Go `strings.TrimSpace` (leading and trailing whitespace removed). -/
def goTrimSpace (s : List Char) : List Char :=
  ((s.dropWhile Char.isWhitespace).reverse.dropWhile Char.isWhitespace).reverse

/-- Model of Go `strings.HasSuffix`. -/
def goHasSuffix (s suf : List Char) : Bool :=
  suf.isSuffixOf s

/-- Model of Go `strings.TrimSuffix`: removes one trailing occurrence of `suf`, if present. -/
def goTrimSuffix (s suf : List Char) : List Char :=
  if suf.isSuffixOf s then s.take (s.length - suf.length) else s

/-- Splits `s` at the first occurrence of the pattern `pat`, removing the pattern.
Returns `none` when `pat` does not occur. This models Go `strings.SplitN(s, pat, 2)`
(which yields the two pieces exactly when the pattern occurs) together with
`strings.Contains` (occurrence test). -/
def splitFirst : List Char → List Char → Option (List Char × List Char)
  | [], pat => if pat.isEmpty then some ([], []) else none
  | c :: rest, pat =>
      if pat.isPrefixOf (c :: rest) then some ([], (c :: rest).drop pat.length)
      else
        match splitFirst rest pat with
        | some (a, b) => some (c :: a, b)
        | none => none

/-- Model of Go `strings.Replace(lines, "\\\n", " \n", -1)` in `Shell.read`:
every backslash-newline pair is collapsed to a space followed by a newline. -/
def collapseCont : List Char → List Char
  | '\\' :: '\n' :: rest => ' ' :: '\n' :: collapseCont rest
  | c :: rest => c :: collapseCont rest
  | [] => []

/-- Model of Go `strings.Fields` (split around runs of whitespace); accumulator
holds the current field reversed. -/
def fieldsAux : List Char → List Char → List (List Char)
  | [], cur => if cur.isEmpty then [] else [cur.reverse]
  | c :: rest, cur =>
      if c.isWhitespace then
        if cur.isEmpty then fieldsAux rest [] else cur.reverse :: fieldsAux rest []
      else fieldsAux rest (c :: cur)

/-- Model of Go `strings.Fields`. -/
def goFields (s : List Char) : List (List Char) :=
  fieldsAux s []

/-! ## Shell-word tokenizer

Modelled from the spec: the external collaborator `go-shlex` (`shlex.Split`),
§6 "Command-line tokenization": shell-word splitting with support for quoted
substrings (quotes consumed, not retained) and escape characters; malformed
quoting is a tokenization error surfaced to the caller (`none`). The library
itself is not part of this repository. -/

/-- Lexer mode of the shell-word tokenizer: outside a word, inside a bare word,
inside single or double quotes, or immediately after an escape character. -/
inductive SMode where
  | neutral | word | squote | dquote | escWord | escDquote
  deriving DecidableEq

/-- Characters the tokenizer treats as word separators. -/
def isShSpace (c : Char) : Bool :=
  c = ' ' || c = '\t' || c = '\n' || c = '\r'

/-- Core loop of the shell-word tokenizer. `cur` is the token under construction,
`acc` the finished tokens. `none` signals malformed (unterminated) quoting. -/
def shlexAux : List Char → SMode → List Char → List (List Char) → Option (List (List Char))
  | [], SMode.neutral, _, acc => some acc
  | [], SMode.word, cur, acc => some (acc ++ [cur])
  | [], _, _, _ => none
  | c :: rest, SMode.neutral, _, acc =>
      if isShSpace c then shlexAux rest SMode.neutral [] acc
      else if c = '\'' then shlexAux rest SMode.squote [] acc
      else if c = '"' then shlexAux rest SMode.dquote [] acc
      else if c = '\\' then shlexAux rest SMode.escWord [] acc
      else shlexAux rest SMode.word [c] acc
  | c :: rest, SMode.word, cur, acc =>
      if isShSpace c then shlexAux rest SMode.neutral [] (acc ++ [cur])
      else if c = '\'' then shlexAux rest SMode.squote cur acc
      else if c = '"' then shlexAux rest SMode.dquote cur acc
      else if c = '\\' then shlexAux rest SMode.escWord cur acc
      else shlexAux rest SMode.word (cur ++ [c]) acc
  | c :: rest, SMode.squote, cur, acc =>
      if c = '\'' then shlexAux rest SMode.word cur acc
      else shlexAux rest SMode.squote (cur ++ [c]) acc
  | c :: rest, SMode.dquote, cur, acc =>
      if c = '"' then shlexAux rest SMode.word cur acc
      else if c = '\\' then shlexAux rest SMode.escDquote cur acc
      else shlexAux rest SMode.dquote (cur ++ [c]) acc
  | c :: rest, SMode.escWord, cur, acc => shlexAux rest SMode.word (cur ++ [c]) acc
  | c :: rest, SMode.escDquote, cur, acc => shlexAux rest SMode.dquote (cur ++ [c]) acc

/-- Shell-word splitting (model of the external `shlex.Split`). -/
def shlexSplit (s : List Char) : Option (List (List Char)) :=
  shlexAux s SMode.neutral [] []

/-! ## Line assembler: `Shell.read` and `Shell.readMultiLinesFunc` (ishell.go) -/

/-- Read error classification of the underlying line source (`readline`):
end of stream, interrupt signal or any other error. -/
inductive RdErr where
  | eof | interrupt | other
  deriving DecidableEq

/-- Mutable state captured by the closure passed to `readMultiLinesFunc` inside
`Shell.read`: the `heredoc` flag and the current heredoc terminator token. -/
structure HState where
  heredoc : Bool
  eofTok : List Char
  deriving DecidableEq

/-- One call of the closure in `Shell.read` (ishell.go, lines 267-280): decides
whether reading continues after `line` and updates the closure's state.
When not in heredoc mode, a line containing `<<` with a non-blank token after it
switches to heredoc mode; otherwise continuation is a trailing backslash on the
trimmed line. In heredoc mode, reading continues until the line equals the token. -/
def heredocStep (st : HState) (line : List Char) : Bool × HState :=
  if st.heredoc then
    (decide (line ≠ st.eofTok), st)
  else
    match splitFirst line ['<', '<'] with
    | some (_, after) =>
        let tok := goTrimSpace after
        if tok.isEmpty then
          (goHasSuffix (goTrimSpace line) ['\\'], HState.mk false tok)
        else
          (true, HState.mk true tok)
    | none => (goHasSuffix (goTrimSpace line) ['\\'], st)

/-- Model of `Shell.readMultiLinesFunc` (ishell.go, lines 306-330) specialised to
the stateful closure of `Shell.read`. The input source is a list of lines; an
exhausted source yields an EOF read error. Each line is appended to the buffer;
when the closure says "continue", a newline is appended and reading goes on. -/
def readMultiLinesAux (st : HState) : List (List Char) → List Char × HState × Option RdErr
  | [] => ([], st, some RdErr.eof)
  | l :: rest =>
      let r := heredocStep st l
      if r.1 then
        let q := readMultiLinesAux r.2 rest
        (l ++ '\n' :: q.1, q.2.1, q.2.2)
      else (l, r.2, none)

/-- Errors surfaced by `Shell.read`: a read error from the line source or a
tokenization error from the shell-word splitter. -/
inductive GErr where
  | rd (e : RdErr)
  | tok
  deriving DecidableEq

/-- Model of `Shell.read` (ishell.go, lines 262-304). Assembles lines from the
source, then: in heredoc mode, word-splits the text before `<<` and appends the
heredoc body (text after the first newline, with the terminator token trimmed
from the end) as one final literal argument; otherwise collapses backslash-newline
pairs and word-splits the whole text. -/
def goRead (src : List (List Char)) : List (List Char) × Option GErr :=
  let m := readMultiLinesAux (HState.mk false []) src
  let lines := m.1
  let st := m.2.1
  let rerr : Option GErr := m.2.2.map GErr.rd
  if st.heredoc then
    match splitFirst lines ['<', '<'] with
    | some (before, after) =>
        let body := ((splitFirst after ['\n']).map Prod.snd).getD []
        let arg := goTrimSuffix body st.eofTok
        match shlexSplit before with
        | some args => (args ++ [arg], rerr)
        | none => ([arg], some GErr.tok)
    | none => ([], rerr)
  else
    let lines2 := collapseCont lines
    match shlexSplit lines2 with
    | some args => (args, rerr)
    | none => ([], some GErr.tok)

/-! ## Command tree: `Cmd`, `Cmd.AddCmd`, `Cmd.FindCmd` (command.go) -/

/-- Model of the `Cmd` struct (command.go, lines 10-31). `hasFunc` models
`Func != nil`; `completer` the optional custom `Completer`; `children` models
the `map[string]*Cmd` keyed by child name, determinized to insertion order. -/
inductive Cmd where
  | mk (name : String) (hasFunc : Bool)
      (completer : Option (List String → List String))
      (children : List (String × Cmd))

/-- Name of the command. -/
def Cmd.name : Cmd → String
  | Cmd.mk n _ _ _ => n

/-- Whether `Func` is non-nil. -/
def Cmd.hasFunc : Cmd → Bool
  | Cmd.mk _ f _ _ => f

/-- The optional custom completer. -/
def Cmd.completer : Cmd → Option (List String → List String)
  | Cmd.mk _ _ f _ => f

/-- The subcommand map, as an association list keyed by name. -/
def Cmd.children : Cmd → List (String × Cmd)
  | Cmd.mk _ _ _ cs => cs

/-- Map lookup `c.children[arg]` on the association-list model. -/
def lookupChild : List (String × Cmd) → String → Option Cmd
  | [], _ => none
  | (k, v) :: rest, a => if k = a then some v else lookupChild rest a

/-- Map store `children[cmd.Name] = cmd`: replaces the entry when the key is
present, appends otherwise. -/
def mapInsert : List (String × Cmd) → String → Cmd → List (String × Cmd)
  | [], k, v => [(k, v)]
  | (k1, v1) :: rest, k, v =>
      if k1 = k then (k, v) :: rest else (k1, v1) :: mapInsert rest k v

/-- Model of `Cmd.AddCmd` (command.go, lines 33-39): stores `cmd` under its name. -/
def Cmd.addCmd (c : Cmd) (cmd : Cmd) : Cmd :=
  Cmd.mk c.name c.hasFunc c.completer (mapInsert c.children cmd.name cmd)

/-- Model of `Cmd.DeleteCmd` (command.go, lines 41-44). -/
def Cmd.deleteCmd (c : Cmd) (nm : String) : Cmd :=
  Cmd.mk c.name c.hasFunc c.completer (c.children.filter (fun p => p.1 ≠ nm))

/-- Loop of `Cmd.FindCmd` (command.go, lines 94-107): `acc` is the `cmd`
variable holding the deepest node matched so far; on a hit descend, on the first
miss return `acc` and the unconsumed words, with `[]` when all words matched. -/
def findCmdGo (acc : Option Cmd) (c : Cmd) : List String → Option Cmd × List String
  | [] => (acc, [])
  | a :: rest =>
      match lookupChild c.children a with
      | some c1 => findCmdGo (some c1) c1 rest
      | none => (acc, a :: rest)

/-- Model of `Cmd.FindCmd` (command.go, lines 94-107). -/
def Cmd.findCmd (c : Cmd) (args : List String) : Option Cmd × List String :=
  findCmdGo none c args

/-! Declarative companions for stating that `FindCmd` is a greedy
longest-prefix walk. -/

/-- Number of leading words of `args` that match a chain of children from `c`. -/
def matchLen (c : Cmd) : List String → Nat
  | [] => 0
  | a :: rest =>
      match lookupChild c.children a with
      | some c1 => matchLen c1 rest + 1
      | none => 0

/-- The deepest node reached by descending along matching leading words
(`none` when the first word already fails to match). -/
def deepestMatch (c : Cmd) : List String → Option Cmd
  | [] => none
  | a :: rest =>
      match lookupChild c.children a with
      | some c1 => some ((deepestMatch c1 rest).getD c1)
      | none => none

/-- Whether every word of `ws` matches a chain of children starting at `c`. -/
def isChain (c : Cmd) : List String → Bool
  | [] => true
  | a :: rest =>
      match lookupChild c.children a with
      | some c1 => isChain c1 rest
      | none => false

/-! ## Alias-aware command tree

Modelled from the spec: the alias-aware variant of `Cmd` and `FindCmd` is not
present under src/ (src/command.go stores no aliases; only its test
`TestFindAlias` in command_test.go and the caller in example/main.go refer to
`Aliases`). Following §3 and §4.3 of the spec: each command carries a set of
aliases, and `findChild(name)` tries the exact child name first, then the
alias sets of the children. -/

/-- Modelled from the spec: command node with an alias set (§3 data model);
the alias-carrying `Cmd` struct is missing from src/. -/
inductive CmdA where
  | mk (name : String) (aliases : List String) (children : List (String × CmdA))

/-- Name of the aliased command node. -/
def CmdA.name : CmdA → String
  | CmdA.mk n _ _ => n

/-- Alias set of the aliased command node. -/
def CmdA.aliases : CmdA → List String
  | CmdA.mk _ a _ => a

/-- Children of the aliased command node. -/
def CmdA.children : CmdA → List (String × CmdA)
  | CmdA.mk _ _ cs => cs

/-- Exact-name lookup among children. -/
def lookupByName : List (String × CmdA) → String → Option CmdA
  | [], _ => none
  | (k, v) :: rest, a => if k = a then some v else lookupByName rest a

/-- Alias lookup among children: first child whose alias set contains `a`. -/
def lookupByAlias : List (String × CmdA) → String → Option CmdA
  | [], _ => none
  | (_, v) :: rest, a => if a ∈ v.aliases then some v else lookupByAlias rest a

/-- Modelled from the spec (§4.3): `findChild(name)` resolution order — exact
name match first, then alias match. -/
def findChildA (m : List (String × CmdA)) (a : String) : Option CmdA :=
  match lookupByName m a with
  | some c => some c
  | none => lookupByAlias m a

/-- Walk loop of the alias-aware `FindCmd`, mirroring `findCmdGo` but with
alias-aware child lookup (modelled from the spec, §4.3). -/
def findCmdAGo (acc : Option CmdA) (c : CmdA) : List String → Option CmdA × List String
  | [] => (acc, [])
  | a :: rest =>
      match findChildA c.children a with
      | some c1 => findCmdAGo (some c1) c1 rest
      | none => (acc, a :: rest)

/-- Modelled from the spec: alias-aware resolution (§4.3). -/
def CmdA.findCmd (c : CmdA) (args : List String) : Option CmdA × List String :=
  findCmdAGo none c args

/-! ## Completer: `iCompleter.Do` and `iCompleter.getWords` (completer.go) -/

/-- Model of the `iCompleter` struct (completer.go, lines 9-12). `disabled`
models the result of the `disabled()` callback (`multiChoiceActive`). -/
structure ICompleter where
  cmd : Cmd
  disabled : Bool

/-- Model of `iCompleter.getWords` (completer.go, lines 47-59): resolve the
words against the tree; on a complete miss fall back to the root with all the
words; delegate to a custom completer when one is declared, else return the
resolved node's direct child names (map keys, in insertion order). -/
def getWords (ic : ICompleter) (w : List String) : List String :=
  let r := ic.cmd.findCmd w
  let cmd := r.1.getD ic.cmd
  let args := if r.1.isSome then r.2 else w
  match cmd.completer with
  | some f => f args
  | none => cmd.children.map Prod.fst

/-- Model of `iCompleter.Do` (completer.go, lines 14-45). The line buffer is a
rune slice and `pos` the cursor position. Words come from the shell-word
splitter, falling back to plain whitespace fields on a tokenization error.
When the character before the cursor is not a space, the last word is the
in-progress word to complete; candidates are filtered to those starting
with it and the matched part is stripped from each suggestion. A single
suggestion that becomes empty is replaced by a single space. Returns the
suggestions and the length of the completed part. -/
def doComplete (ic : ICompleter) (line : List Char) (pos : Nat) : List (List Char) × Nat :=
  if ic.disabled then ([], line.length)
  else
    let words : List (List Char) :=
      match shlexSplit line with
      | some w => w
      | none => goFields line
    let usePfx : Bool := !words.isEmpty && line.getD (pos - 1) ' ' != ' '
    let pfx : List Char := if usePfx then words.getLastD [] else []
    let cWords : List String :=
      if usePfx then getWords ic (words.dropLast.map (fun l => String.mk l))
      else getWords ic (words.map (fun l => String.mk l))
    let base : List (List Char) := cWords.filterMap (fun w =>
      if pfx.isPrefixOf w.toList then some (w.toList.drop pfx.length) else none)
    let suggestions :=
      if base.length = 1 && !pfx.isEmpty && (base.getD 0 []).isEmpty then [[' ']]
      else base
    (suggestions, pfx.length)

/-! ## Concurrent reader: `shellReader.ReadLine` (reader.go, lines 110-138)

The fan-out reader variant keeps a list of registered consumers; a caller
appends its consumer and only starts the physical read when none is in flight;
when the physical read completes, the result is broadcast to every registered
consumer and the in-flight flag is cleared. Every mutation happens under the
reader's mutex, so the behaviour is modelled as a sequence of atomic events on
an explicit state. -/

/-- Result handed to a consumer: the line text and the read error. -/
structure LineRes where
  text : List Char
  err : Option RdErr
  deriving DecidableEq

/-- State of the fan-out reader: registered consumers (by id), whether a
physical read is in flight, how many physical reads were issued against the
line source, and the results delivered so far (consumer id paired with the
result it received). -/
structure RState where
  consumers : List Nat
  reading : Bool
  physReads : Nat
  delivered : List (Nat × LineRes)
  deriving DecidableEq

/-- Atomic effect of one `shellReader.ReadLine(consumer)` call (reader.go,
lines 110-119): append the consumer; when already reading, return without
issuing a read; otherwise mark reading and issue one physical read. -/
def registerConsumer (st : RState) (cid : Nat) : RState :=
  let st1 := RState.mk (st.consumers ++ [cid]) st.reading st.physReads st.delivered
  if st1.reading then st1
  else RState.mk st1.consumers true (st1.physReads + 1) st1.delivered

/-- The `lineString` built from a completed physical read (reader.go, lines
121-126): on a successful read the trailing delimiter is stripped from the raw
text. -/
def mkLineRes (raw : List Char) (e : Option RdErr) : LineRes :=
  if e = none then LineRes.mk raw.dropLast none else LineRes.mk raw e

/-- Atomic effect of the completion of the physical read (reader.go, lines
126-135): broadcast the result to every registered consumer and clear the
in-flight flag. -/
def completeRead (st : RState) (raw : List Char) (e : Option RdErr) : RState :=
  RState.mk st.consumers false st.physReads
    (st.delivered ++ st.consumers.map (fun c => (c, mkLineRes raw e)))

/-! ## Dispatcher: `Shell.run`, `handleInput`, `handleInterrupt`,
`Shell.handleCommand` (ishell.go) -/

/-- ASCII model of Go `strings.ToLower` (the case folding applied by
`Shell.handleCommand` when `ignoreCase` is set), as a character-wise map. -/
def goToLower (s : String) : String :=
  String.mk (s.data.map Char.toLower)

/-- Errors handled by the run loop: the distinguished `errNoHandler` and
`errNoInterruptHandler` sentinels (ishell.go, lines 29-32), an error a host
handler set on its context (`host n`), or a read error printed by the loop. -/
inductive DErr where
  | noHandler
  | noInterruptHandler
  | host (n : Nat)
  | readErr (e : RdErr)
  deriving DecidableEq

/-- Observable host-handler invocations made while handling one read result. -/
inductive HCall where
  | interruptH (count : Nat)
  | eofH
  | genericH (line : List String)
  | cmdFunc (name : String) (args : List String)
  | helpText (name : String)
  deriving DecidableEq

/-- Configuration of a shell instance: the registered command tree, the flags,
and the registered host handlers. A handler is modelled by whether it is
registered plus the error code (if any) it sets on its context when invoked. -/
structure ShellCfg where
  root : Cmd
  ignoreCase : Bool
  autoHelp : Bool
  hasGeneric : Bool
  genericRet : Option Nat
  hasInterrupt : Bool
  interruptRet : Option Nat
  hasEof : Bool
  eofRet : Option Nat
  funcRet : Option Nat

/-- The in-place lowering loop at the top of `Shell.handleCommand` (ishell.go,
lines 235-239): when `ignoreCase` is set, every word of the slice is lowercased. -/
def foldCase (cfg : ShellCfg) (str : List String) : List String :=
  if cfg.ignoreCase then str.map goToLower else str

/-- Result of `Shell.handleCommand`: whether the input was handled, the error
returned, the handler invocations, and the contents of the caller's slice after
the call (`handleCommand` lowercases the words in place when `ignoreCase`). -/
structure HCRes where
  handled : Bool
  err : Option DErr
  calls : List HCall
  strAfter : List String

/-- Model of `Shell.handleCommand` (ishell.go, lines 234-252): when
`ignoreCase` is set every word of the input slice is lowercased in place; the
(folded) words are resolved via `FindCmd`; a miss is reported unhandled; a node
with no `Func`, or a sole remaining arg "help" under `autoHelp`, prints help;
otherwise the command's `Func` runs with the remaining args. -/
def handleCommand (cfg : ShellCfg) (str : List String) : HCRes :=
  match cfg.root.findCmd (foldCase cfg str) with
  | (none, _) => HCRes.mk false none [] (foldCase cfg str)
  | (some cmd, args) =>
      if cmd.hasFunc = false ∨ (cfg.autoHelp = true ∧ args = ["help"]) then
        HCRes.mk true none [HCall.helpText cmd.name] (foldCase cfg str)
      else
        HCRes.mk true (cfg.funcRet.map DErr.host) [HCall.cmdFunc cmd.name args]
          (foldCase cfg str)

/-- Result of `handleInput`: the error returned to the run loop, the handler
invocations, and the caller's slice contents after the call. -/
structure HIRes where
  err : Option DErr
  calls : List HCall
  strAfter : List String

/-- Model of `handleInput` (ishell.go, lines 203-216): a handled command (or a
command error) is returned as is; an unhandled input goes to the generic
catch-all handler when one is registered (it receives the same slice, hence the
in-place folded words), and yields `errNoHandler` otherwise. `Shell.Process`
(ishell.go, lines 198-201) calls exactly this function. -/
def handleInput (cfg : ShellCfg) (line : List String) : HIRes :=
  let r := handleCommand cfg line
  if r.handled = true ∨ r.err ≠ none then HIRes.mk r.err r.calls r.strAfter
  else if cfg.hasGeneric = false then HIRes.mk (some DErr.noHandler) r.calls r.strAfter
  else HIRes.mk (cfg.genericRet.map DErr.host) (r.calls ++ [HCall.genericH r.strAfter])
    r.strAfter

/-- Outcome of one iteration of the `Shell.run` loop: the interrupt counter
afterwards, the handler invocations, the error printed at the end of the
iteration (if any), and whether the loop breaks. -/
structure StepRes where
  count : Nat
  calls : List HCall
  printedErr : Option DErr
  breaks : Bool

/-- Model of one iteration of `Shell.run` (ishell.go, lines 139-189) on the
read result `(line, err)`, starting with interrupt counter `ic`. EOF with no
EOF handler breaks the loop; EOF with a handler that sets an error prints and
continues; other read errors print and continue; an interrupt increments the
counter and invokes the interrupt handler with it (`handleInterrupt`, ishell.go
lines 218-226) or yields `errNoInterruptHandler` when none is registered;
otherwise the counter resets to 0 and a non-empty line is dispatched through
`handleInput`. -/
def runStep (cfg : ShellCfg) (ic : Nat) (line : List String) (err : Option RdErr) : StepRes :=
  if err = some RdErr.eof ∧ cfg.hasEof = false then StepRes.mk ic [] none true
  else if err = some RdErr.eof ∧ cfg.eofRet ≠ none then
    StepRes.mk ic [HCall.eofH] (cfg.eofRet.map DErr.host) false
  else if err = some RdErr.other then
    StepRes.mk ic [] (some (DErr.readErr RdErr.other)) false
  else if err = some RdErr.interrupt then
    if cfg.hasInterrupt = false then StepRes.mk ic [] (some DErr.noInterruptHandler) false
    else StepRes.mk (ic + 1) [HCall.interruptH (ic + 1)] (cfg.interruptRet.map DErr.host) false
  else
    let pre : List HCall := if err = some RdErr.eof then [HCall.eofH] else []
    if line = [] then StepRes.mk 0 pre none false
    else
      let r := handleInput cfg line
      StepRes.mk 0 (pre ++ r.calls) r.err false

/-- Iterated run loop over a list of read results, threading the interrupt
counter and stopping when an iteration breaks. Returns the final counter and
all handler invocations in order. -/
def runSeq (cfg : ShellCfg) (ic : Nat) : List (List String × Option RdErr) → Nat × List HCall
  | [] => (ic, [])
  | (l, e) :: rest =>
      let r := runStep cfg ic l e
      if r.breaks then (r.count, r.calls)
      else
        let q := runSeq cfg r.count rest
        (q.1, r.calls ++ q.2)

/-- The counts passed to the interrupt handler, in invocation order. -/
def interruptCounts (cs : List HCall) : List Nat :=
  cs.filterMap (fun c =>
    match c with
    | HCall.interruptH n => some n
    | _ => none)

/-! ## Concrete fixtures used by witnesses and concrete claims -/

/-- Node with children named add, clear and words (the completion fixture). -/
def sampleTree : Cmd :=
  Cmd.mk "" false none
    [("add", Cmd.mk "add" true none []),
     ("clear", Cmd.mk "clear" true none []),
     ("words", Cmd.mk "words" true none [])]

/-- Empty root node. -/
def rootW : Cmd := Cmd.mk "" false none []

/-- First registration of the name x. -/
def c1W : Cmd := Cmd.mk "x" false none []

/-- Second registration of the name x (a different node: it has a handler). -/
def c2W : Cmd := Cmd.mk "x" true none []

/-- Aliased child command, as in the repository test TestFindAlias. -/
def aliasChild : CmdA := CmdA.mk "child1" ["alias1", "alias2"] []

/-- Root holding the aliased child. -/
def aliasTree : CmdA := CmdA.mk "" [] [("child1", aliasChild)]

/-- Shell configuration fixture: case-insensitive, all handlers registered,
command tree with one top-level command named cmd. -/
def cfgW : ShellCfg :=
  ShellCfg.mk (Cmd.mk "" false none [("cmd", Cmd.mk "cmd" true none [])])
    true true true none true none false none none

/-- Idle reader state fixture. -/
def rstW : RState := RState.mk [] false 0 []

/-! ## Helper lemmas -/

/-- Characterization of the FindCmd loop: the remaining args are the suffix
after the maximal matched prefix, and the returned node is the deepest match,
falling back to the accumulator when no word matched. -/
theorem findCmdGo_eq (args : List String) : ∀ (c : Cmd) (acc : Option Cmd),
    findCmdGo acc c args =
      ((deepestMatch c args).elim acc some, args.drop (matchLen c args)) := by
  induction args with
  | nil => intro c acc; simp [findCmdGo, deepestMatch, matchLen]
  | cons a rest ih =>
      intro c acc
      cases hLk : lookupChild c.children a with
      | none => simp [findCmdGo, deepestMatch, matchLen, hLk]
      | some c1 =>
          simp only [findCmdGo, deepestMatch, matchLen, hLk]
          rw [ih c1 (some c1)]
          cases hD : deepestMatch c1 rest <;> simp [hD]

/-- The maximal matched prefix is a chain. -/
theorem isChain_take_matchLen (args : List String) : ∀ c : Cmd,
    isChain c (args.take (matchLen c args)) = true := by
  induction args with
  | nil => intro c; simp [matchLen, isChain]
  | cons a rest ih =>
      intro c
      cases hLk : lookupChild c.children a with
      | none => simp [matchLen, hLk, isChain]
      | some c1 =>
          simp only [matchLen, hLk, List.take_succ_cons, isChain]
          exact ih c1

/-- Any chain-matching prefix is no longer than the maximal matched prefix. -/
theorem isChain_le_matchLen (args : List String) : ∀ (c : Cmd) (j : Nat),
    isChain c (args.take j) = true → min j args.length ≤ matchLen c args := by
  induction args with
  | nil => intro c j _; simp
  | cons a rest ih =>
      intro c j h
      cases j with
      | zero => simp
      | succ k =>
          rw [List.take_succ_cons] at h
          cases hLk : lookupChild c.children a with
          | none => rw [isChain, hLk] at h; exact absurd h (by simp)
          | some c1 =>
              rw [isChain, hLk] at h
              have hk := ih c1 k h
              simp only [matchLen, hLk, List.length_cons, Nat.succ_min_succ]
              omega

/-- A zero-length match means no node was matched. -/
theorem matchLen_zero_deepest (c : Cmd) (args : List String)
    (h : matchLen c args = 0) : deepestMatch c args = none := by
  cases args with
  | nil => rfl
  | cons a rest =>
      cases hLk : lookupChild c.children a with
      | none => simp [deepestMatch, hLk]
      | some c1 => simp [matchLen, hLk] at h

/-- Looking up the key just stored finds the stored value. -/
theorem lookupChild_mapInsert_self (m : List (String × Cmd)) (k : String) (v : Cmd) :
    lookupChild (mapInsert m k v) k = some v := by
  induction m with
  | nil => simp [mapInsert, lookupChild]
  | cons p rest ih =>
      obtain ⟨k1, v1⟩ := p
      by_cases h : k1 = k
      · simp [mapInsert, h, lookupChild]
      · simp [mapInsert, h, lookupChild, ih]

/-- Storing under the same key twice does not grow the map. -/
theorem mapInsert_twice_length (m : List (String × Cmd)) (k : String) (v1 v2 : Cmd) :
    (mapInsert (mapInsert m k v1) k v2).length = (mapInsert m k v1).length := by
  induction m with
  | nil => simp [mapInsert]
  | cons p rest ih =>
      obtain ⟨k1, w⟩ := p
      by_cases h : k1 = k
      · simp [mapInsert, h]
      · simp [mapInsert, h, ih]

/-- Command handling never invokes the interrupt handler. -/
theorem interruptCounts_handleCommand (cfg : ShellCfg) (str : List String) :
    interruptCounts (handleCommand cfg str).calls = [] := by
  unfold handleCommand
  cases hF : cfg.root.findCmd (foldCase cfg str) with
  | mk o rem =>
      cases o with
      | none => simp [interruptCounts]
      | some cmd =>
          by_cases hb : cmd.hasFunc = false ∨ (cfg.autoHelp = true ∧ rem = ["help"])
          · simp [hb, interruptCounts]
          · simp [hb, interruptCounts]

/-- Input handling never invokes the interrupt handler. -/
theorem interruptCounts_handleInput (cfg : ShellCfg) (line : List String) :
    interruptCounts (handleInput cfg line).calls = [] := by
  have hc := interruptCounts_handleCommand cfg line
  unfold handleInput
  by_cases h1 : (handleCommand cfg line).handled = true ∨ (handleCommand cfg line).err ≠ none
  · simpa [h1] using hc
  · by_cases h2 : cfg.hasGeneric = false
    · simpa [h1, h2] using hc
    · simp only [h1, h2, if_false, if_true]
      unfold interruptCounts at hc ⊢
      simp [List.filterMap_append, hc]

/-! ## Claim theorems -/

/-- C1 counterexample: on the input lines "run <<EOF", "line1", "line2", "EOF",
the statement assembler does not produce the ArgVector ["run", "line1\nline2"]
claimed by the spec. -/
theorem heredoc_trailing_newline_cex :
    (goRead ["run <<EOF".toList, "line1".toList, "line2".toList, "EOF".toList]).1 ≠
      ["run".toList, "line1\nline2".toList] := by decide

/-- C1 (amended): on the input lines "run <<EOF", "line1", "line2", "EOF", the
statement assembler produces the ArgVector ["run", "line1\nline2\n"]: a
2-element vector whose second element is the newline-joined heredoc body,
including the newline that precedes the terminator line, appended as one final
literal argument that is never word-split. -/
theorem heredoc_assembly_amended :
    goRead ["run <<EOF".toList, "line1".toList, "line2".toList, "EOF".toList] =
      (["run".toList, "line1\nline2\n".toList], none) := by decide

/-- C7: the input lines "a \" (trimmed text ending in a backslash) followed by
"b" assemble into the ArgVector ["a", "b"]: the trailing backslash continues
the statement to the next line and tokenization yields the two words. -/
theorem continuation_assembly :
    goRead ["a \\".toList, "b".toList] = (["a".toList, "b".toList], none) := by decide

/-- C8: given a node with children named add, clear and words and the
in-progress text "ad" with the cursor at position 2 (immediately after a
non-space character), completion returns exactly the suggestion "d" (candidate
"add" minus the matched part "ad") with replaced length 2. -/
theorem completion_strips_matched_part :
    doComplete (ICompleter.mk sampleTree false) "ad".toList 2 = (["d".toList], 2) := by
  decide

/-- C3: FindCmd is a greedy non-backtracking longest-prefix walk: the result is
the deepest node reached by descending along matching leading words (none when
zero words matched, which is exactly when the matched length is zero) together
with the unconsumed suffix of the arguments; the matched region is a chain of
children and no chain-matching region is longer; on the empty vector the result
is (none, []). -/
theorem findCmd_greedy_longest (c : Cmd) (args : List String) :
    c.findCmd args = (deepestMatch c args, args.drop (matchLen c args)) ∧
    isChain c (args.take (matchLen c args)) = true ∧
    (∀ j : Nat, isChain c (args.take j) = true → min j args.length ≤ matchLen c args) ∧
    (matchLen c args = 0 → deepestMatch c args = none) ∧
    c.findCmd [] = (none, []) := by
  refine ⟨?_, isChain_take_matchLen args c, fun j h => isChain_le_matchLen args c j h,
    matchLen_zero_deepest c args, rfl⟩
  show findCmdGo none c args = _
  rw [findCmdGo_eq args c none]
  cases deepestMatch c args <;> rfl

/-- C3 witness: the characterization applied to the sample tree. -/
theorem findCmd_greedy_longest_witness :
    sampleTree.findCmd ["add", "zzz"] =
      (deepestMatch sampleTree ["add", "zzz"],
        ["add", "zzz"].drop (matchLen sampleTree ["add", "zzz"])) :=
  (findCmd_greedy_longest sampleTree ["add", "zzz"]).1

/-- C4: registering a command whose name collides with an existing direct child
of the same node replaces that child: resolution of the name afterwards returns
the later registration's node, and the direct-children count does not increase. -/
theorem addCmd_last_wins (n c1 c2 : Cmd) (h : c1.name = c2.name) :
    ((n.addCmd c1).addCmd c2).findCmd [c2.name] = (some c2, []) ∧
    ((n.addCmd c1).addCmd c2).children.length = (n.addCmd c1).children.length := by
  constructor
  · show findCmdGo none ((n.addCmd c1).addCmd c2) [c2.name] = (some c2, [])
    have hL : lookupChild ((n.addCmd c1).addCmd c2).children c2.name = some c2 :=
      lookupChild_mapInsert_self _ _ _
    simp [findCmdGo, hL]
  · show (mapInsert (mapInsert n.children c1.name c1) c2.name c2).length =
      (mapInsert n.children c1.name c1).length
    rw [h]
    exact mapInsert_twice_length n.children c2.name c1 c2

/-- C4 witness: registering x twice on an empty root. -/
theorem addCmd_last_wins_witness :
    ((rootW.addCmd c1W).addCmd c2W).findCmd [c2W.name] = (some c2W, []) ∧
    ((rootW.addCmd c1W).addCmd c2W).children.length = (rootW.addCmd c1W).children.length :=
  addCmd_last_wins rootW c1W c2W rfl

/-- C2: for a registered command with an alias, resolution through the alias
agrees with resolution through the name, for every suffix of further words; the
hypotheses are the uniqueness invariant of the spec (the alias is no child's
name, and the alias search finds exactly the aliased command, which is
registered under its own name). -/
theorem alias_resolution_eq (root c : CmdA) (a : String) (rest : List String)
    (hname : lookupByName root.children c.name = some c)
    (hnoname : lookupByName root.children a = none)
    (halias : lookupByAlias root.children a = some c) :
    root.findCmd (a :: rest) = root.findCmd (c.name :: rest) := by
  show findCmdAGo none root (a :: rest) = findCmdAGo none root (c.name :: rest)
  simp only [findCmdAGo, findChildA, hname, hnoname, halias]

/-- C2 witness: the alias alias1 of child1 resolves like child1 itself. -/
theorem alias_resolution_eq_witness :
    aliasTree.findCmd ["alias1", "zz"] = aliasTree.findCmd ["child1", "zz"] :=
  alias_resolution_eq aliasTree aliasChild "alias1" ["zz"] rfl rfl rfl

/-- C5: two ReadLine calls arriving while the reader is idle and while the
resulting physical read is outstanding issue exactly one physical read between
them, and on completion both registered consumers receive the identical
result. -/
theorem reader_single_read_fanout (st : RState) (a b : Nat) (raw : List Char)
    (e : Option RdErr) (hread : st.reading = false) (hcons : st.consumers = []) :
    (registerConsumer st a).physReads = st.physReads + 1 ∧
    (registerConsumer (registerConsumer st a) b).physReads = st.physReads + 1 ∧
    completeRead (registerConsumer (registerConsumer st a) b) raw e =
      RState.mk [a, b] false (st.physReads + 1)
        (st.delivered ++ [(a, mkLineRes raw e), (b, mkLineRes raw e)]) := by
  simp [registerConsumer, completeRead, hread, hcons]

/-- C5 witness: the fan-out scenario from the fresh reader state. -/
theorem reader_single_read_fanout_witness :
    (registerConsumer rstW 1).physReads = rstW.physReads + 1 ∧
    (registerConsumer (registerConsumer rstW 1) 2).physReads = rstW.physReads + 1 ∧
    completeRead (registerConsumer (registerConsumer rstW 1) 2) "hi\n".toList none =
      RState.mk [1, 2] false (rstW.physReads + 1)
        (rstW.delivered ++
          [(1, mkLineRes "hi\n".toList none), (2, mkLineRes "hi\n".toList none)]) :=
  reader_single_read_fanout rstW 1 2 "hi\n".toList none rfl rfl

/-- C6: three consecutive interrupt results with no intervening normal
statement produce interrupt-handler counts 1, 2, 3; after one normal statement
(whatever the interrupt counter was before it) the counter is reset to 0, so
the next interrupt's count is 1 again. -/
theorem interrupt_count_sequence (cfg : ShellCfg) (h : cfg.hasInterrupt = true)
    (l1 l2 l3 ns : List String) (hns : ns ≠ []) :
    interruptCounts (runSeq cfg 0
      [(l1, some RdErr.interrupt), (l2, some RdErr.interrupt),
       (l3, some RdErr.interrupt)]).2 = [1, 2, 3] ∧
    ∀ ic : Nat,
      interruptCounts (runSeq cfg ic [(ns, none), (l1, some RdErr.interrupt)]).2 = [1] := by
  constructor
  · simp [runSeq, runStep, h, interruptCounts]
  · intro ic
    have hh := interruptCounts_handleInput cfg ns
    unfold interruptCounts at hh ⊢
    simp [runSeq, runStep, h, hns, List.filterMap_append, hh]

/-- C6 witness: the interrupt sequence on the concrete configuration. -/
theorem interrupt_count_sequence_witness :
    interruptCounts (runSeq cfgW 0
      [(["a"], some RdErr.interrupt), (["b"], some RdErr.interrupt),
       (["c"], some RdErr.interrupt)]).2 = [1, 2, 3] :=
  (interrupt_count_sequence cfgW rfl ["a"] ["b"] ["c"] ["go"] (by decide)).1

/-- C9: on any input vector the command tree does not match, handleInput
invokes the registered catch-all handler when one exists (and then never
returns the distinguished no-handler error); only when no catch-all handler is
registered does it return the distinguished no-handler error; and in neither
case does the run loop break on such an iteration. -/
theorem resolution_miss_dispatch (cfg : ShellCfg) (line : List String)
    (hmiss : (cfg.root.findCmd (foldCase cfg line)).1 = none) :
    ((handleInput cfg line).calls =
      if cfg.hasGeneric = true then [HCall.genericH (foldCase cfg line)] else []) ∧
    ((handleInput cfg line).err =
      if cfg.hasGeneric = true then cfg.genericRet.map DErr.host
      else some DErr.noHandler) ∧
    (cfg.hasGeneric = true → (handleInput cfg line).err ≠ some DErr.noHandler) ∧
    (∀ ic : Nat, (runStep cfg ic line none).breaks = false) := by
  have hc : handleCommand cfg line = HCRes.mk false none [] (foldCase cfg line) := by
    unfold handleCommand
    cases hF : cfg.root.findCmd (foldCase cfg line) with
    | mk o rem =>
        cases o with
        | none => rfl
        | some cmd => rw [hF] at hmiss; simp at hmiss
  have hhi : handleInput cfg line =
      (if cfg.hasGeneric = true then
        HIRes.mk (cfg.genericRet.map DErr.host)
          [HCall.genericH (foldCase cfg line)] (foldCase cfg line)
      else HIRes.mk (some DErr.noHandler) [] (foldCase cfg line)) := by
    unfold handleInput
    rw [hc]
    by_cases hg : cfg.hasGeneric = true
    · simp [hg]
    · simp [hg]
  refine ⟨?_, ?_, ?_, ?_⟩
  · rw [hhi]; by_cases hg : cfg.hasGeneric = true <;> simp [hg]
  · rw [hhi]; by_cases hg : cfg.hasGeneric = true <;> simp [hg]
  · intro hg
    rw [hhi]
    simp only [hg, if_true]
    cases cfg.genericRet <;> simp
  · intro ic
    unfold runStep
    by_cases hl : line = [] <;> simp [hl]

/-- C9 witness: an unmatched input on the concrete configuration. -/
theorem resolution_miss_dispatch_witness :
    (handleInput cfgW ["nosuch"]).err =
      (if cfgW.hasGeneric = true then cfgW.genericRet.map DErr.host
       else some DErr.noHandler) :=
  (resolution_miss_dispatch cfgW ["nosuch"] rfl).2.1

/-- C10: with case-insensitive mode enabled, command handling lowercases every
word of the input vector in place before resolution — the slice contents after
the call (as seen by the caller of Process and by the catch-all handler) are
the fully folded vector — and the arguments delivered to a matched command
handler are the corresponding suffix of the folded vector, hence also
case-folded. -/
theorem ignorecase_folds_all_words (cfg : ShellCfg) (hic : cfg.ignoreCase = true)
    (str : List String) :
    (handleInput cfg str).strAfter = str.map goToLower ∧
    (∀ nm args, HCall.cmdFunc nm args ∈ (handleInput cfg str).calls →
      args = (str.map goToLower).drop (matchLen cfg.root (str.map goToLower))) ∧
    (∀ l, HCall.genericH l ∈ (handleInput cfg str).calls → l = str.map goToLower) := by
  have hfold : foldCase cfg str = str.map goToLower := by simp [foldCase, hic]
  unfold handleInput handleCommand
  rw [hfold]
  cases hF : cfg.root.findCmd (str.map goToLower) with
  | mk o rem =>
      have hrem : rem = (str.map goToLower).drop (matchLen cfg.root (str.map goToLower)) := by
        have he := findCmdGo_eq (str.map goToLower) cfg.root none
        rw [show cfg.root.findCmd (str.map goToLower) =
          findCmdGo none cfg.root (str.map goToLower) from rfl, he] at hF
        injection hF with h1 h2
        exact h2.symm
      cases o with
      | none =>
          by_cases hg : cfg.hasGeneric = true <;> simp [hg]
      | some cmd =>
          by_cases hb : cmd.hasFunc = false ∨ (cfg.autoHelp = true ∧ rem = ["help"])
          · simp [hb]
          · simp only [hb, if_false]
            refine ⟨by simp, ?_, by simp⟩
            intro nm args hmem
            simp at hmem
            rw [hmem.2, hrem]

/-- C10 witness: the folded vector observed after handling a mixed-case input
on the case-insensitive configuration. -/
theorem ignorecase_folds_all_words_witness :
    (handleInput cfgW ["CMD", "Foo"]).strAfter = ["CMD", "Foo"].map goToLower :=
  (ignorecase_folds_all_words cfgW rfl ["CMD", "Foo"]).1
